import Mathlib

/-!
Verification of the kiosk `AccountQuota` controller
(`pkg/manager/quota/controller/controller.go`).

Go `v1.ResourceList` values are maps from resource names to quantities.
We embed them as association lists `List (String × Int)`; a well-formed
value (one that actually arises from a Go map) has pairwise-distinct keys,
and lookup is by first match.  Quantities are embedded as `Int` in
canonical form, so the semantic quantity comparison `Cmp == 0` used by
`apiequality.Semantic` and by `quota.Equals` becomes `Int` equality.
-/

abbrev ResourceList := List (String × Int)

namespace RL

/-- Map lookup on an association list (first match). -/
def get (r : ResourceList) (k : String) : Option Int :=
  (r.find? (fun p => p.1 == k)).map (fun p => p.2)

/-- Lookup with default 0, the value a missing key contributes to a sum. -/
def getD (r : ResourceList) (k : String) : Int :=
  (get r k).getD 0

/-- The key list of a resource list (`quota.ResourceNames`). -/
def keys (r : ResourceList) : List String :=
  r.map (fun p => p.1)

/-- Key membership, as the Go two-result map index reports it. -/
def mem (r : ResourceList) (k : String) : Bool :=
  (get r k).isSome

/-- Well-formedness: the association list represents a Go map, so its
keys are pairwise distinct. -/
def WF (r : ResourceList) : Prop :=
  (keys r).Nodup

instance (r : ResourceList) : Decidable (WF r) := by
  unfold WF; infer_instance

@[simp] theorem get_nil (k : String) : get [] k = none := rfl

theorem get_cons (p : String × Int) (r : ResourceList) (k : String) :
    get (p :: r) k = if p.1 == k then some p.2 else get r k := by
  by_cases h : p.1 == k <;> simp [get, List.find?_cons, h]

theorem get_append (a b : ResourceList) (k : String) :
    get (a ++ b) k = (get a k).or (get b k) := by
  induction a with
  | nil => simp
  | cons p a ih =>
    by_cases h : p.1 == k <;> simp [get_cons, h, ih]

theorem mem_iff_keys (r : ResourceList) (k : String) :
    mem r k = true ↔ k ∈ keys r := by
  induction r with
  | nil => simp [mem, keys]
  | cons p r ih =>
    by_cases h : p.1 = k
    · simp [mem, keys, get_cons, h]
    · have hb : (p.1 == k) = false := beq_eq_false_iff_ne.mpr h
      simp only [mem, keys, get_cons, hb, List.map_cons, List.mem_cons,
        Bool.false_eq_true, if_false]
      constructor
      · intro hh
        exact Or.inr (ih.mp hh)
      · rintro (he | hh)
        · exact absurd he.symm h
        · exact ih.mpr hh

theorem get_eq_none_of_not_mem (r : ResourceList) (k : String)
    (h : k ∉ keys r) : get r k = none := by
  have := mem_iff_keys r k
  cases hg : get r k with
  | none => rfl
  | some v =>
    exfalso
    exact h (this.mp (by simp [mem, hg]))

/-- On a well-formed list, every entry is what lookup returns. -/
theorem get_of_mem_wf (r : ResourceList) (h : WF r)
    (p : String × Int) (hp : p ∈ r) : get r p.1 = some p.2 := by
  induction r with
  | nil => simp at hp
  | cons q r ih =>
    simp only [WF, keys, List.map_cons, List.nodup_cons] at h
    rcases List.mem_cons.mp hp with h1 | h1
    · subst h1
      simp [get_cons]
    · have hk : (q.1 == p.1) = false := by
        apply beq_eq_false_iff_ne.mpr
        intro he
        exact h.1 (he ▸ List.mem_map.mpr ⟨p, h1, rfl⟩)
      rw [get_cons, hk]
      simp only [Bool.false_eq_true, if_false]
      exact ih h.2 h1

end RL

theorem keys_map_fst (f : String × Int → String × Int)
    (h : ∀ p, (f p).1 = p.1) (r : ResourceList) :
    RL.keys (r.map f) = RL.keys r := by
  induction r with
  | nil => rfl
  | cons p r ih =>
    simp only [List.map_cons, RL.keys] at ih ⊢
    rw [h p, ih]

/-- `quota.Add` (k8s.io/kubernetes/pkg/quota/v1): the union of the two
maps, adding quantities on shared keys. -/
def rlAdd (a b : ResourceList) : ResourceList :=
  a.map (fun p => (p.1, p.2 + RL.getD b p.1)) ++
    b.filter (fun p => (RL.get a p.1).isNone)

/-- `quota.Mask`: restrict a resource list to the given resource names. -/
def rlMask (r : ResourceList) (names : List String) : ResourceList :=
  r.filter (fun p => names.contains p.1)

/-- Go map assignment `r[k] = v`: replace the binding in place when the
key is present, append a new binding otherwise. -/
def rlSet (r : ResourceList) (k : String) (v : Int) : ResourceList :=
  if (RL.get r k).isSome then
    r.map (fun p => if p.1 == k then (p.1, v) else p)
  else r ++ [(k, v)]

/-- The loop `for key, value := range u \x7b r[key] = value \x7d`. -/
def rlOverlay (r u : ResourceList) : ResourceList :=
  u.foldl (fun acc p => rlSet acc p.1 p.2) r

/-- `quota.Equals`: same key sets, and quantities semantically equal. -/
def rlEquals (a b : ResourceList) : Bool :=
  a.length == b.length && a.all (fun p => RL.get b p.1 == some p.2)

/-- `apiequality.Semantic.DeepEqual` on two (possibly nil) resource
lists: a nil map differs from a non-nil one (even an empty one); two
non-nil maps are equal when they bind the same keys to semantically
equal quantities. -/
def semDeepEqual : Option ResourceList → Option ResourceList → Bool
  | none, none => true
  | some a, some b => rlEquals a b
  | _, _ => false

/-- Pointwise addition of optional quantities, absent treated as absent
unless the other side is present. -/
def optAdd : Option Int → Option Int → Option Int
  | none, b => b
  | some x, none => some x
  | some x, some y => some (x + y)

theorem find?_filter_imp (p q : String × Int → Bool) (l : List (String × Int))
    (h : ∀ x ∈ l, p x = true → q x = true) :
    (l.filter q).find? p = l.find? p := by
  induction l with
  | nil => rfl
  | cons x l ih =>
    have hl : ∀ y ∈ l, p y = true → q y = true :=
      fun y hy => h y (List.mem_cons_of_mem _ hy)
    cases hq : q x with
    | true =>
      cases hp : p x with
      | true => simp [List.filter_cons, List.find?_cons, hq, hp]
      | false => simp [List.filter_cons, List.find?_cons, hq, hp, ih hl]
    | false =>
      have hp : p x = false := by
        cases hpx : p x with
        | false => rfl
        | true =>
          have := h x (List.mem_cons_self x l) hpx
          rw [hq] at this
          exact absurd this (by simp)
      simp [List.filter_cons, List.find?_cons, hq, hp, ih hl]

theorem get_map_addf (a b : ResourceList) (k : String) :
    RL.get (a.map (fun p => (p.1, p.2 + RL.getD b p.1))) k
      = (RL.get a k).map (fun v => v + RL.getD b k) := by
  induction a with
  | nil => rfl
  | cons p a ih =>
    by_cases h : p.1 = k
    · simp [RL.get_cons, h]
    · have hb : (p.1 == k) = false := beq_eq_false_iff_ne.mpr h
      simpa [RL.get_cons, hb] using ih

theorem get_rlAdd (a b : ResourceList) (k : String) :
    RL.get (rlAdd a b) k = optAdd (RL.get a k) (RL.get b k) := by
  unfold rlAdd
  rw [RL.get_append, get_map_addf]
  cases ha : RL.get a k with
  | some v =>
    cases hb : RL.get b k with
    | some w => simp [optAdd, RL.getD, hb]
    | none => simp [optAdd, RL.getD, hb]
  | none =>
    have h1 : (b.filter (fun p => (RL.get a p.1).isNone)).find?
          (fun p => p.1 == k) = b.find? (fun p => p.1 == k) := by
      apply find?_filter_imp
      intro x _ hx
      have hxk : x.1 = k := by simpa using hx
      rw [hxk, ha]
      rfl
    have hfilter : RL.get (b.filter (fun p => (RL.get a p.1).isNone)) k
        = RL.get b k := by
      show ((b.filter (fun p => (RL.get a p.1).isNone)).find?
            (fun p => p.1 == k)).map (fun p => p.2)
          = (b.find? (fun p => p.1 == k)).map (fun p => p.2)
      rw [h1]
    simp [hfilter, optAdd]

theorem get_rlMask (r : ResourceList) (names : List String) (k : String) :
    RL.get (rlMask r names) k
      = if names.contains k then RL.get r k else none := by
  by_cases h : names.contains k
  · rw [if_pos h]
    have h1 : (r.filter (fun p => names.contains p.1)).find?
          (fun p => p.1 == k) = r.find? (fun p => p.1 == k) := by
      apply find?_filter_imp
      intro x _ hx
      have hxk : x.1 = k := by simpa using hx
      rw [hxk]
      exact h
    show ((r.filter (fun p => names.contains p.1)).find?
          (fun p => p.1 == k)).map (fun p => p.2)
        = (r.find? (fun p => p.1 == k)).map (fun p => p.2)
    rw [h1]
  · rw [if_neg h]
    have hnone : (rlMask r names).find? (fun p => p.1 == k) = none := by
      apply List.find?_eq_none.mpr
      intro x hx
      rcases List.mem_filter.mp hx with ⟨_, hqx⟩
      intro hpx
      have hxk : x.1 = k := by simpa using hpx
      rw [hxk] at hqx
      exact h hqx
    show ((rlMask r names).find? (fun p => p.1 == k)).map (fun p => p.2)
        = none
    rw [hnone]
    rfl

theorem get_map_setf (r : ResourceList) (k : String) (v : Int) (j : String) :
    RL.get (r.map (fun p => if p.1 == k then (p.1, v) else p)) j
      = if j = k then (if (RL.get r k).isSome then some v else none)
        else RL.get r j := by
  induction r with
  | nil => by_cases h : j = k <;> simp [RL.get, h]
  | cons p r ih =>
    by_cases hpk : p.1 = k
    · by_cases hjk : j = k
      · simp [RL.get_cons, hpk, hjk]
      · have hkj : ¬ k = j := fun he => hjk he.symm
        simpa [RL.get_cons, hpk, hjk, hkj] using ih
    · by_cases hpj : p.1 = j
      · have hjk : ¬ j = k := by rw [← hpj]; exact hpk
        simp [RL.get_cons, hpk, hpj, hjk]
      · by_cases hjk : j = k
        · simpa [RL.get_cons, hpk, hpj, hjk] using ih
        · simpa [RL.get_cons, hpk, hpj, hjk] using ih

theorem get_rlSet (r : ResourceList) (k : String) (v : Int) (j : String) :
    RL.get (rlSet r k v) j = if j = k then some v else RL.get r j := by
  unfold rlSet
  cases hs : (RL.get r k).isSome with
  | true =>
    simp only [hs, if_true]
    rw [get_map_setf, hs]
    simp
  | false =>
    simp only [hs, Bool.false_eq_true, if_false]
    rw [RL.get_append]
    by_cases hjk : j = k
    · have hr : RL.get r j = none := by
        rw [hjk]
        cases hg : RL.get r k
        · rfl
        · rw [hg] at hs; simp at hs
      have hsingle : RL.get [(k, v)] j = some v := by
        rw [RL.get_cons, if_pos (beq_iff_eq.mpr hjk.symm)]
      rw [hr, hsingle, if_pos hjk]
      rfl
    · have hsingle : RL.get [(k, v)] j = none := by
        rw [RL.get_cons, if_neg]
        · rfl
        · intro hb
          exact hjk (beq_iff_eq.mp hb).symm
      rw [hsingle, if_neg hjk]
      cases RL.get r j <;> rfl

/-- Lookup in a list from its last binding backwards: the value the Go
range-assignment loop leaves behind for a key bound several times. -/
def revGet (u : ResourceList) (k : String) : Option Int :=
  RL.get u.reverse k

theorem get_rlOverlay (r u : ResourceList) (k : String) :
    RL.get (rlOverlay r u) k = (revGet u k).or (RL.get r k) := by
  induction u generalizing r with
  | nil => simp [rlOverlay, revGet, RL.get]
  | cons p u ih =>
    show RL.get (rlOverlay (rlSet r p.1 p.2) u) k = _
    rw [ih, get_rlSet]
    have hrev : revGet (p :: u) k
        = (revGet u k).or (if k = p.1 then some p.2 else none) := by
      unfold revGet
      rw [List.reverse_cons, RL.get_append]
      by_cases h : k = p.1
      · have hb : (p.1 == k) = true := beq_iff_eq.mpr h.symm
        simp [RL.get_cons, hb, h, RL.get]
      · have hb : (p.1 == k) = false := beq_eq_false_iff_ne.mpr
          (fun he => h he.symm)
        simp [RL.get_cons, hb, h, RL.get]
    rw [hrev]
    cases hu : revGet u k <;> by_cases h : k = p.1 <;> simp [h]

theorem revGet_eq_get (u : ResourceList) (h : RL.WF u) (k : String) :
    revGet u k = RL.get u k := by
  have hrevwf : RL.WF u.reverse := by
    unfold RL.WF RL.keys at h ⊢
    rw [List.map_reverse]
    exact List.nodup_reverse.mpr h
  cases hg : RL.get u k with
  | some v =>
    obtain ⟨q, hqmem, hqk, hqv⟩ : ∃ q, q ∈ u ∧ q.1 = k ∧ q.2 = v := by
      unfold RL.get at hg
      cases hf : u.find? (fun p => p.1 == k) with
      | none => rw [hf] at hg; simp at hg
      | some q =>
        rw [hf] at hg
        refine ⟨q, List.mem_of_find?_eq_some hf, ?_, ?_⟩
        · have := List.find?_some hf
          simpa using this
        · simpa using hg
    have hrg : RL.get u.reverse q.1 = some q.2 :=
      RL.get_of_mem_wf _ hrevwf q (List.mem_reverse.mpr hqmem)
    show RL.get u.reverse k = some v
    rw [← hqk, hrg, hqv]
  | none =>
    have hk : k ∉ RL.keys u := by
      intro hmem
      have := (RL.mem_iff_keys u k).mpr hmem
      rw [RL.mem, hg] at this
      simp at this
    have hk2 : k ∉ RL.keys u.reverse := by
      unfold RL.keys
      rw [List.map_reverse, List.mem_reverse]
      exact hk
    show RL.get u.reverse k = none
    exact RL.get_eq_none_of_not_mem _ _ hk2

theorem wf_rlAdd (a b : ResourceList) (ha : RL.WF a) (hb : RL.WF b) :
    RL.WF (rlAdd a b) := by
  unfold RL.WF rlAdd
  have hkeys : RL.keys (a.map (fun p => (p.1, p.2 + RL.getD b p.1))
        ++ b.filter (fun p => (RL.get a p.1).isNone))
      = RL.keys a ++ RL.keys (b.filter (fun p => (RL.get a p.1).isNone)) := by
    unfold RL.keys
    rw [List.map_append]
    congr 1
    exact keys_map_fst (fun p => (p.1, p.2 + RL.getD b p.1)) (fun p => rfl) a
  rw [show RL.keys (a.map (fun p => (p.1, p.2 + RL.getD b p.1))
        ++ b.filter (fun p => (RL.get a p.1).isNone))
      = RL.keys a ++ RL.keys (b.filter (fun p => (RL.get a p.1).isNone))
    from hkeys]
  rw [List.nodup_append]
  refine ⟨ha, ?_, ?_⟩
  · exact List.Nodup.sublist (List.Sublist.map _ (List.filter_sublist _)) hb
  · intro x hx hx2
    rcases List.mem_map.mp hx2 with ⟨p, hp, hpx⟩
    rcases List.mem_filter.mp hp with ⟨_, hq⟩
    have hnone : RL.get a p.1 = none := by
      cases hg : RL.get a p.1
      · rfl
      · rw [hg] at hq; simp at hq
    rw [← hpx] at hx
    have := (RL.mem_iff_keys a p.1).mpr hx
    rw [RL.mem, hnone] at this
    simp at this

theorem wf_rlSet (r : ResourceList) (k : String) (v : Int) (h : RL.WF r) :
    RL.WF (rlSet r k v) := by
  unfold rlSet
  cases hs : (RL.get r k).isSome with
  | true =>
    simp only [if_true]
    have hfst : ∀ p : String × Int,
        ((if p.1 == k then (p.1, v) else p) : String × Int).1 = p.1 := by
      intro p
      by_cases hb : (p.1 == k) = true <;> simp [hb]
    unfold RL.WF
    rw [keys_map_fst (fun p => if p.1 == k then (p.1, v) else p) hfst]
    exact h
  | false =>
    simp only [Bool.false_eq_true, if_false]
    unfold RL.WF RL.keys
    rw [List.map_append]
    rw [List.nodup_append]
    refine ⟨h, List.nodup_singleton _, ?_⟩
    intro x hx hx2
    simp at hx2
    rw [hx2] at hx
    have := (RL.mem_iff_keys r k).mpr hx
    rw [RL.mem] at this
    rw [this] at hs
    exact absurd hs (by simp)

theorem wf_rlOverlay (r u : ResourceList) (h : RL.WF r) :
    RL.WF (rlOverlay r u) := by
  induction u generalizing r with
  | nil => exact h
  | cons p u ih => exact ih _ (wf_rlSet _ _ _ h)

theorem wf_rlMask (r : ResourceList) (names : List String) (h : RL.WF r) :
    RL.WF (rlMask r names) :=
  List.Nodup.sublist (List.Sublist.map _ (List.filter_sublist _)) h

theorem rlEquals_refl (a : ResourceList) (h : RL.WF a) :
    rlEquals a a = true := by
  unfold rlEquals
  have h1 : (a.length == a.length) = true := by simp
  have h2 : a.all (fun p => RL.get a p.1 == some p.2) = true := by
    apply List.all_eq_true.mpr
    intro p hp
    have := RL.get_of_mem_wf a h p hp
    simp [this]
  rw [h1, h2]
  rfl

/-! ## Data model (`pkg/apis/config/v1alpha1`, restricted to the fields
the controller reads) -/

/-- `v1.ResourceQuotaSpec` as the controller uses it: the hard limits.
`scopes` and `scopeSelector` are only forwarded to the external
`quota.CalculateUsage` call and are therefore absorbed into the `calc`
parameter of the reconciler below. A `none` hard map is Go's nil map. -/
structure ResourceQuotaSpec where
  hard : Option ResourceList
deriving DecidableEq

/-- `AccountQuotaSpec`: the owning account and the quota spec. -/
structure AccountQuotaSpec where
  account : String
  quota : ResourceQuotaSpec
deriving DecidableEq

/-- `v1.ResourceQuotaStatus`: hard and used, either possibly nil. -/
structure ResourceQuotaStatus where
  hard : Option ResourceList
  used : Option ResourceList
deriving DecidableEq

/-- `AccountQuotaStatusByNamespace` (field `Namespace` is spelled `ns`
because `namespace` is reserved in Lean). -/
structure AccountQuotaStatusByNamespace where
  ns : String
  status : ResourceQuotaStatus
deriving DecidableEq

/-- `AccountQuotaStatus`: the aggregated total and per-namespace list. -/
structure AccountQuotaStatus where
  total : ResourceQuotaStatus
  namespaces : List AccountQuotaStatusByNamespace
deriving DecidableEq

/-- `AccountQuota` (cluster-scoped, so its key is its name). -/
structure AccountQuota where
  name : String
  spec : AccountQuotaSpec
  status : AccountQuotaStatus
deriving DecidableEq

/-! ## The reconciler: `syncResourceQuota`

The reconciler's interactions with the cluster are made explicit
parameters: `namespaceList` is the list (in index order) of namespaces
returned for the quota's account, `calcUsage n` is what
`quota.CalculateUsage` returns for namespace `n` (a usage map and an
optional error), and `updateErr` is the outcome of the
`client.Status().Update` call, used only when a write is issued. -/

/-- The seeding loop
`for _, nsStatus := range accountQuota.Status.Namespaces`:
the last entry matching the namespace with a non-nil used map wins,
copied through `quota.Add(v1.ResourceList{}, nsStatus.Status.Used)`. -/
def seedUsed (prev : List AccountQuotaStatusByNamespace) (n : String) :
    ResourceList :=
  prev.foldl
    (fun usedList nsStatus =>
      if nsStatus.ns == n && nsStatus.status.used.isSome then
        rlAdd [] (nsStatus.status.used.getD [])
      else usedList)
    []

/-- The per-namespace body of the sync loop: seed from the previous
status, overlay the freshly calculated usage, then mask to the
resource names that have hard constraints. -/
def syncNamespaceUsed (prev : List AccountQuotaStatusByNamespace)
    (hardResources : List String) (newUsage : ResourceList) (n : String) :
    ResourceList :=
  rlMask (rlOverlay (seedUsed prev n) newUsage) hardResources

/-- One iteration of `for _, n := range namespaceList.Items`: the
accumulator carries (`used`, `totalUsed`, collected errors). -/
def syncStep (prev : List AccountQuotaStatusByNamespace)
    (hardResources : List String)
    (calcUsage : String → ResourceList × Option String)
    (acc : List AccountQuotaStatusByNamespace × ResourceList × List String)
    (n : String) :
    List AccountQuotaStatusByNamespace × ResourceList × List String :=
  let newUsage := (calcUsage n).1
  let errs := match (calcUsage n).2 with
    | some e => acc.2.2 ++ [e]
    | none => acc.2.2
  let usedList := syncNamespaceUsed prev hardResources newUsage n
  (acc.1 ++ [⟨n, ⟨none, some usedList⟩⟩], rlAdd acc.2.1 usedList, errs)

/-- Result of one `syncResourceQuota` call. `dirty` is the flag that
decides the status write, so it also records whether the write was
issued; `evalErrs` are the collected per-namespace evaluator errors and
`errs` the final list aggregated by `utilerrors.NewAggregate`. -/
structure SyncResult where
  status : AccountQuotaStatus
  dirty : Bool
  evalErrs : List String
  errs : List String
deriving DecidableEq

/-- `utilerrors.NewAggregate`: nil for an empty list, an aggregate
error otherwise. -/
def newAggregate (errs : List String) : Option (List String) :=
  if errs.isEmpty then none else some errs

/-- `syncResourceQuota` (controller.go:353-425). -/
def syncResourceQuota (accountQuota : AccountQuota)
    (namespaceList : List String)
    (calcUsage : String → ResourceList × Option String)
    (updateErr : Option String) : SyncResult :=
  let statusLimitsDirty :=
    ! semDeepEqual accountQuota.spec.quota.hard accountQuota.status.total.hard
  let dirty0 := statusLimitsDirty
      || accountQuota.status.total.hard.isNone
      || accountQuota.status.total.used.isNone
  let hardLimits := rlAdd [] (accountQuota.spec.quota.hard.getD [])
  let hardResources := RL.keys hardLimits
  let loop := namespaceList.foldl
      (syncStep accountQuota.status.namespaces hardResources calcUsage)
      ([], [], [])
  let newStatus : AccountQuotaStatus :=
    { total := { hard := some hardLimits, used := some loop.2.1 },
      namespaces := loop.1 }
  let dirty := dirty0
      || ! rlEquals loop.2.1 (accountQuota.status.total.used.getD [])
  let errs := loop.2.2 ++ (if dirty then updateErr.toList else [])
  { status := newStatus, dirty := dirty, evalErrs := loop.2.2, errs := errs }

/-- Unrolling the sync loop: its three accumulator components are the
entry list, the running total and the collected errors. -/
theorem syncLoop_eq (prev : List AccountQuotaStatusByNamespace)
    (hardResources : List String)
    (calcUsage : String → ResourceList × Option String)
    (nss : List String)
    (acc : List AccountQuotaStatusByNamespace × ResourceList × List String) :
    nss.foldl (syncStep prev hardResources calcUsage) acc
      = (acc.1 ++ nss.map (fun n =>
            ⟨n, ⟨none, some (syncNamespaceUsed prev hardResources
              (calcUsage n).1 n)⟩⟩),
         nss.foldl (fun t n => rlAdd t (syncNamespaceUsed prev hardResources
              (calcUsage n).1 n)) acc.2.1,
         acc.2.2 ++ nss.filterMap (fun n => (calcUsage n).2)) := by
  induction nss generalizing acc with
  | nil => simp
  | cons n nss ih =>
    rw [List.foldl_cons, ih]
    unfold syncStep
    cases hc : (calcUsage n).2 <;>
      simp [List.append_assoc, List.filterMap_cons, hc]

theorem getD_rlAdd (a b : ResourceList) (k : String) :
    RL.getD (rlAdd a b) k = RL.getD a k + RL.getD b k := by
  unfold RL.getD
  rw [get_rlAdd]
  cases RL.get a k <;> cases RL.get b k <;> simp [optAdd]

theorem mem_rlAdd (a b : ResourceList) (k : String) :
    RL.mem (rlAdd a b) k = (RL.mem a k || RL.mem b k) := by
  unfold RL.mem
  rw [get_rlAdd]
  cases RL.get a k <;> cases RL.get b k <;> simp [optAdd]

theorem rlAdd_nil_left (b : ResourceList) : rlAdd [] b = b := by
  unfold rlAdd
  rw [List.map_nil, List.nil_append]
  exact List.filter_eq_self.mpr (fun p _ => rfl)

theorem foldl_rlAdd_getD {α : Type} (f : α → ResourceList) (l : List α)
    (init : ResourceList) (k : String) :
    RL.getD (l.foldl (fun t n => rlAdd t (f n)) init) k
      = RL.getD init k + (l.map (fun n => RL.getD (f n) k)).sum := by
  induction l generalizing init with
  | nil => simp
  | cons n l ih =>
    rw [List.foldl_cons, ih, getD_rlAdd]
    simp [add_assoc]

theorem foldl_rlAdd_mem {α : Type} (f : α → ResourceList) (l : List α)
    (init : ResourceList) (k : String) :
    RL.mem (l.foldl (fun t n => rlAdd t (f n)) init) k
      = (RL.mem init k || l.any (fun n => RL.mem (f n) k)) := by
  induction l generalizing init with
  | nil => simp
  | cons n l ih =>
    rw [List.foldl_cons, ih, mem_rlAdd]
    simp [Bool.or_assoc]

theorem getD_nil (k : String) : RL.getD [] k = 0 := rfl

theorem list_contains_iff (names : List String) (k : String) :
    names.contains k = true ↔ k ∈ names := by
  induction names with
  | nil => simp
  | cons n names ih => simp [List.contains_cons]

theorem mem_of_pair_mem (r : ResourceList) (p : String × Int) (hp : p ∈ r) :
    RL.mem r p.1 = true :=
  (RL.mem_iff_keys r p.1).mpr (List.mem_map.mpr ⟨p, hp, rfl⟩)

theorem any_over_map {α β : Type} (l : List α) (f : α → β) (p : β → Bool) :
    (l.map f).any p = l.any (fun x => p (f x)) := by
  induction l with
  | nil => rfl
  | cons x l ih => simp [ih]

/-- C1: for every `AccountQuota` reconciled by `syncResourceQuota`, the
status it computes has `status.total.used` equal, per resource name, to
the sum of the `used` maps of all entries of `status.namespaces` (key
present in the total iff present in some entry; value the sum of the
entries' values, so the aggregate is invariant under any reordering of
the namespace entries because `Int` addition is commutative). -/
theorem sync_total_used_is_namespace_sum
    (accountQuota : AccountQuota) (namespaceList : List String)
    (calcUsage : String → ResourceList × Option String)
    (updateErr : Option String) (k : String) :
    RL.getD ((syncResourceQuota accountQuota namespaceList calcUsage
        updateErr).status.total.used.getD []) k
      = (((syncResourceQuota accountQuota namespaceList calcUsage
            updateErr).status.namespaces).map
          (fun e => RL.getD (e.status.used.getD []) k)).sum
    ∧ RL.mem ((syncResourceQuota accountQuota namespaceList calcUsage
        updateErr).status.total.used.getD []) k
      = ((syncResourceQuota accountQuota namespaceList calcUsage
            updateErr).status.namespaces).any
          (fun e => RL.mem (e.status.used.getD []) k) := by
  simp only [syncResourceQuota, syncLoop_eq, Option.getD_some]
  constructor
  · rw [foldl_rlAdd_getD]
    simp only [getD_nil, zero_add, List.nil_append, List.map_map,
      Function.comp_def, Option.getD_some]
  · rw [foldl_rlAdd_mem]
    simp only [List.nil_append, any_over_map, Option.getD_some, RL.mem,
      RL.get_nil, Option.isSome_none, Bool.false_or]

theorem all_over_map {α β : Type} (l : List α) (f : α → β) (p : β → Bool) :
    (l.map f).all p = l.all (fun x => p (f x)) := by
  induction l with
  | nil => rfl
  | cons x l ih => simp [ih]

theorem mem_rlMask_imp (r : ResourceList) (names : List String) (k : String)
    (h : RL.mem (rlMask r names) k = true) : names.contains k = true := by
  unfold RL.mem at h
  rw [get_rlMask] at h
  by_cases hc : names.contains k = true
  · exact hc
  · rw [if_neg hc] at h
    simp at h

/-- C2: every resource name appearing in the status computed by
`syncResourceQuota` — in `total.used`, in any per-namespace `used` map,
or in `total.hard` — is declared in `spec.quota.hard`. -/
theorem sync_status_masked_to_spec_hard
    (accountQuota : AccountQuota) (namespaceList : List String)
    (calcUsage : String → ResourceList × Option String)
    (updateErr : Option String) :
    ((syncResourceQuota accountQuota namespaceList calcUsage
        updateErr).status.total.used.getD []).all
        (fun p => RL.mem (accountQuota.spec.quota.hard.getD []) p.1) = true
    ∧ ((syncResourceQuota accountQuota namespaceList calcUsage
          updateErr).status.namespaces).all
        (fun e => (e.status.used.getD []).all
          (fun p => RL.mem (accountQuota.spec.quota.hard.getD []) p.1))
        = true
    ∧ ((syncResourceQuota accountQuota namespaceList calcUsage
          updateErr).status.total.hard.getD []).all
        (fun p => RL.mem (accountQuota.spec.quota.hard.getD []) p.1)
        = true := by
  simp only [syncResourceQuota, syncLoop_eq, Option.getD_some,
    List.nil_append]
  refine ⟨?_, ?_, ?_⟩
  · apply List.all_eq_true.mpr
    intro p hp
    have hmem := mem_of_pair_mem _ p hp
    rw [foldl_rlAdd_mem] at hmem
    simp only [RL.mem, RL.get_nil, Option.isSome_none, Bool.false_or,
      List.any_eq_true] at hmem
    obtain ⟨n, _, hmemn⟩ := hmem
    have hc := mem_rlMask_imp _ _ p.1 hmemn
    rw [rlAdd_nil_left] at hc
    exact (RL.mem_iff_keys _ _).mpr ((list_contains_iff _ _).mp hc)
  · rw [all_over_map]
    apply List.all_eq_true.mpr
    intro n _
    apply List.all_eq_true.mpr
    intro p hp
    have hmem := mem_of_pair_mem _ p hp
    have hc := mem_rlMask_imp _ _ p.1 hmem
    rw [rlAdd_nil_left] at hc
    exact (RL.mem_iff_keys _ _).mpr ((list_contains_iff _ _).mp hc)
  · rw [rlAdd_nil_left]
    apply List.all_eq_true.mpr
    intro p hp
    exact mem_of_pair_mem _ p hp

/-- C3: `syncResourceQuota` issues its status write exactly when the
quota is dirty — the spec hard limits differ (under
`apiequality.Semantic`) from the previously written `status.total.hard`,
or the previous status is absent (a nil total hard or used map), or the
freshly computed `total.used` differs under semantic quantity equality
from the previous `total.used` — and when it is not dirty, no write
happens and the returned aggregate holds exactly the collected
per-namespace evaluator errors. -/
theorem sync_write_iff_dirty
    (accountQuota : AccountQuota) (namespaceList : List String)
    (calcUsage : String → ResourceList × Option String)
    (updateErr : Option String) :
    ((syncResourceQuota accountQuota namespaceList calcUsage
        updateErr).dirty = true ↔
      (semDeepEqual accountQuota.spec.quota.hard
          accountQuota.status.total.hard = false
       ∨ accountQuota.status.total.hard = none
       ∨ accountQuota.status.total.used = none
       ∨ rlEquals ((syncResourceQuota accountQuota namespaceList calcUsage
            updateErr).status.total.used.getD [])
          (accountQuota.status.total.used.getD []) = false))
    ∧ ((syncResourceQuota accountQuota namespaceList calcUsage
          updateErr).dirty = false →
        (syncResourceQuota accountQuota namespaceList calcUsage
          updateErr).errs
          = (syncResourceQuota accountQuota namespaceList calcUsage
              updateErr).evalErrs) := by
  simp only [syncResourceQuota, syncLoop_eq, Option.getD_some]
  constructor
  · simp only [Bool.or_eq_true, Bool.not_eq_true',
      Option.isNone_iff_eq_none, or_assoc]
  · intro hd
    rw [hd]
    simp

/-- C7: per-namespace evaluator errors do not abort the reconcile: every
namespace still yields a status entry (in list order), the computed
status and the write decision are the same as in an error-free run with
the same usage values, the errors are collected in order, and the
returned aggregate is nil exactly when no error (evaluator or write)
occurred. -/
theorem sync_evaluator_errors_collected
    (accountQuota : AccountQuota) (namespaceList : List String)
    (calcUsage : String → ResourceList × Option String)
    (updateErr : Option String) :
    ((syncResourceQuota accountQuota namespaceList calcUsage
        updateErr).status.namespaces.map (fun e => e.ns) = namespaceList)
    ∧ ((syncResourceQuota accountQuota namespaceList calcUsage
          updateErr).evalErrs
        = namespaceList.filterMap (fun n => (calcUsage n).2))
    ∧ ((syncResourceQuota accountQuota namespaceList calcUsage
          updateErr).status
        = (syncResourceQuota accountQuota namespaceList
            (fun n => ((calcUsage n).1, none)) updateErr).status
      ∧ (syncResourceQuota accountQuota namespaceList calcUsage
          updateErr).dirty
        = (syncResourceQuota accountQuota namespaceList
            (fun n => ((calcUsage n).1, none)) updateErr).dirty)
    ∧ ((syncResourceQuota accountQuota namespaceList calcUsage
          updateErr).errs
        = (syncResourceQuota accountQuota namespaceList calcUsage
            updateErr).evalErrs
          ++ (if (syncResourceQuota accountQuota namespaceList calcUsage
                updateErr).dirty then updateErr.toList else []))
    ∧ (newAggregate (syncResourceQuota accountQuota namespaceList calcUsage
          updateErr).errs = none
        ↔ (syncResourceQuota accountQuota namespaceList calcUsage
            updateErr).errs = []) := by
  refine ⟨?_, ?_, ⟨?_, ?_⟩, ?_, ?_⟩
  · simp only [syncResourceQuota, syncLoop_eq, List.nil_append,
      List.map_map, Function.comp_def]
    exact List.map_id namespaceList
  · simp only [syncResourceQuota, syncLoop_eq, List.nil_append]
  · simp only [syncResourceQuota, syncLoop_eq, List.nil_append]
  · simp only [syncResourceQuota, syncLoop_eq, List.nil_append]
  · simp only [syncResourceQuota, syncLoop_eq, List.nil_append]
  · simp only [newAggregate]
    cases he : (syncResourceQuota accountQuota namespaceList calcUsage
        updateErr).errs <;> simp

/-! ## `addQuota` (controller.go:243-273) -/

/-- A registered `quota.Evaluator`, reduced to the single method this
controller consults when routing keys: `MatchingResources`, which
returns the intersection of the input resource names with the names the
evaluator can score. The method is kept abstract (an arbitrary
function) because the evaluator implementations live outside this
repository. -/
structure Evaluator where
  matchingResources : List String → List String

/-- The controller's two work queues: `queue` (primary) and
`missingUsageQueue` (priority). -/
inductive QueueId
  | primary
  | missingUsage
deriving DecidableEq

/-- `addQuota`: decide which queue receives the observed quota's key.
`registryList` is `rq.registry.List()`. The Go code ranges over the
declared hard constraints and returns from inside the loop on the first
constraint lacking usage that some evaluator claims; since every hit
targets the same queue, that early-return loop is the `any` below. -/
def addQuota (registryList : List Evaluator)
    (accountQuota : AccountQuota) : QueueId :=
  if ! semDeepEqual accountQuota.spec.quota.hard
      accountQuota.status.total.hard then
    .missingUsage
  else if (accountQuota.status.total.hard.getD []).any (fun p =>
      ! RL.mem (accountQuota.status.total.used.getD []) p.1
      && registryList.any (fun ev =>
          ! (ev.matchingResources [p.1]).isEmpty)) then
    .missingUsage
  else
    .primary

/-- The claim's description of when the priority (missing-usage) queue
receives the key: the declared intent is not yet captured in the status,
or some declared hard constraint has no usage entry and some registered
evaluator claims it. -/
def addQuotaPrioritizedSpec (registryList : List Evaluator)
    (accountQuota : AccountQuota) : Prop :=
  semDeepEqual accountQuota.spec.quota.hard
      accountQuota.status.total.hard = false
  ∨ ∃ p ∈ accountQuota.status.total.hard.getD [],
      RL.mem (accountQuota.status.total.used.getD []) p.1 = false
      ∧ ∃ ev ∈ registryList, ev.matchingResources [p.1] ≠ []

/-- C4: `addQuota` sends the key to the priority queue exactly when the
spec hard limits differ from `status.total.hard` or some declared hard
resource lacks a usage entry that a registered evaluator claims, and to
the primary queue otherwise — one queue per call. -/
theorem addQuota_queue_selection (registryList : List Evaluator)
    (accountQuota : AccountQuota) :
    (addQuota registryList accountQuota = QueueId.missingUsage
      ↔ addQuotaPrioritizedSpec registryList accountQuota)
    ∧ (addQuota registryList accountQuota = QueueId.primary
      ↔ ¬ addQuotaPrioritizedSpec registryList accountQuota) := by
  unfold addQuota addQuotaPrioritizedSpec
  by_cases h1 : semDeepEqual accountQuota.spec.quota.hard
      accountQuota.status.total.hard = false
  · rw [if_pos (by rw [h1]; rfl)]
    constructor
    · constructor
      · intro _
        exact Or.inl h1
      · intro _
        rfl
    · constructor
      · intro hh
        exact absurd hh (by simp)
      · intro hh
        exact absurd (Or.inl h1) hh
  · have h1t : semDeepEqual accountQuota.spec.quota.hard
        accountQuota.status.total.hard = true := by
      cases hs : semDeepEqual accountQuota.spec.quota.hard
          accountQuota.status.total.hard
      · exact absurd hs h1
      · rfl
    rw [if_neg (by rw [h1t]; simp)]
    have hiff : (accountQuota.status.total.hard.getD []).any (fun p =>
        ! RL.mem (accountQuota.status.total.used.getD []) p.1
        && registryList.any (fun ev =>
            ! (ev.matchingResources [p.1]).isEmpty)) = true
        ↔ (∃ p ∈ accountQuota.status.total.hard.getD [],
            RL.mem (accountQuota.status.total.used.getD []) p.1 = false
            ∧ ∃ ev ∈ registryList, ev.matchingResources [p.1] ≠ []) := by
      rw [List.any_eq_true]
      constructor
      · rintro ⟨p, hp, hcond⟩
        rcases Bool.and_eq_true_iff.mp hcond with ⟨hm, hany⟩
        refine ⟨p, hp, by cases hmm : RL.mem (accountQuota.status.total.used.getD []) p.1 with
          | false => rfl
          | true => rw [hmm] at hm; exact absurd hm (by simp), ?_⟩
        rcases List.any_eq_true.mp hany with ⟨ev, hev, hne⟩
        refine ⟨ev, hev, ?_⟩
        intro hemp
        rw [hemp] at hne
        simp at hne
      · rintro ⟨p, hp, hm, ev, hev, hne⟩
        refine ⟨p, hp, Bool.and_eq_true_iff.mpr ⟨by rw [hm]; rfl, ?_⟩⟩
        apply List.any_eq_true.mpr
        refine ⟨ev, hev, ?_⟩
        cases hemp : ev.matchingResources [p.1] with
        | nil => exact absurd hemp hne
        | cons a l => rfl
    by_cases h2 : (accountQuota.status.total.hard.getD []).any (fun p =>
        ! RL.mem (accountQuota.status.total.used.getD []) p.1
        && registryList.any (fun ev =>
            ! (ev.matchingResources [p.1]).isEmpty)) = true
    · rw [if_pos h2]
      constructor
      · constructor
        · intro _
          exact Or.inr (hiff.mp h2)
        · intro _
          rfl
      · constructor
        · intro hh
          exact absurd hh (by simp)
        · intro hh
          exact absurd (Or.inr (hiff.mp h2)) hh
    · rw [if_neg h2]
      constructor
      · constructor
        · intro hh
          exact absurd hh (by simp)
        · rintro (ha | hb)
          · exact absurd ha h1
          · exact absurd (hiff.mpr hb) h2
      · constructor
        · intro _
          rintro (ha | hb)
          · exact absurd ha h1
          · exact absurd (hiff.mpr hb) h2
        · intro _
          rfl

/-! ## `replenishQuota` (controller.go:427-459) -/

/-- `schema.GroupResource`. -/
structure GroupResource where
  group : String
  resource : String
deriving DecidableEq

/-- Outcome of the `client.List` call for all account quotas inside
`replenishQuota`. -/
inductive ListOutcome
  | ok (items : List AccountQuota)
  | notFound
  | err
deriving Inhabited

/-- `replenishQuota`: the keys it enqueues, each tagged with the queue
that receives it (`enqueueAccountQuota` adds to `rq.queue`, the primary
queue; cluster-scoped objects have their name as key). `registryGet` is
`rq.registry.Get`. -/
def replenishQuota (registryGet : GroupResource → Option Evaluator)
    (groupResource : GroupResource) (listOutcome : ListOutcome) :
    List (QueueId × String) :=
  match registryGet groupResource with
  | none => []
  | some evaluator =>
    match listOutcome with
    | .notFound => []
    | .err => []
    | .ok items =>
      if items.isEmpty then []
      else items.foldl (fun acc accountQuota =>
        if ! (evaluator.matchingResources
            (RL.keys (accountQuota.status.total.hard.getD []))).isEmpty then
          acc ++ [(QueueId.primary, accountQuota.name)]
        else acc) []

theorem foldl_append_if {α β : Type} (l : List α) (cond : α → Bool)
    (tag : α → β) (acc : List β) :
    l.foldl (fun a x => if cond x then a ++ [tag x] else a) acc
      = acc ++ (l.filter cond).map tag := by
  induction l generalizing acc with
  | nil => simp
  | cons x l ih =>
    cases hc : cond x <;>
      simp [List.filter_cons, hc, ih, List.append_assoc]

/-- C10: `replenishQuota` enqueues only onto the primary queue, exactly
the quotas whose written `status.total.hard` names intersect the
evaluator's `MatchingResources`; with no registered evaluator for the
group resource, a failed list, or an empty quota list nothing is
enqueued; and — given the evaluator contract that `MatchingResources`
returns a subset of its input — a quota whose `status.total.hard` is
still the nil map is never enqueued, whatever its spec declares. -/
theorem replenishQuota_primary_only_status_gated
    (registryGet : GroupResource → Option Evaluator)
    (groupResource : GroupResource) (evaluator : Evaluator)
    (items : List AccountQuota)
    (hev : registryGet groupResource = some evaluator)
    (hsub : ∀ x ∈ evaluator.matchingResources [],
      x ∈ ([] : List String)) :
    (replenishQuota registryGet groupResource (.ok items)
      = (items.filter (fun aq => ! (evaluator.matchingResources
            (RL.keys (aq.status.total.hard.getD []))).isEmpty)).map
          (fun aq => (QueueId.primary, aq.name)))
    ∧ ((replenishQuota registryGet groupResource (.ok items)).all
        (fun e => e.1 == QueueId.primary) = true)
    ∧ (replenishQuota registryGet groupResource .notFound = []
      ∧ replenishQuota registryGet groupResource .err = []
      ∧ replenishQuota registryGet groupResource (.ok []) = [])
    ∧ (∀ registryGet2 : GroupResource → Option Evaluator,
        registryGet2 groupResource = none →
        ∀ lo : ListOutcome,
          replenishQuota registryGet2 groupResource lo = [])
    ∧ (∀ aq : AccountQuota, aq.status.total.hard = none →
        (! (evaluator.matchingResources
            (RL.keys (aq.status.total.hard.getD []))).isEmpty) = false) := by
  have hmr : evaluator.matchingResources [] = [] :=
    List.eq_nil_iff_forall_not_mem.mpr
      (fun x hx => by exact absurd (hsub x hx) (List.not_mem_nil x))
  have hformula : replenishQuota registryGet groupResource (.ok items)
      = (items.filter (fun aq => ! (evaluator.matchingResources
            (RL.keys (aq.status.total.hard.getD []))).isEmpty)).map
          (fun aq => (QueueId.primary, aq.name)) := by
    unfold replenishQuota
    rw [hev]
    cases items with
    | nil => simp
    | cons q qs =>
      simp only [List.isEmpty_cons, Bool.false_eq_true, if_false]
      rw [foldl_append_if]
      simp
  refine ⟨hformula, ?_, ?_, ?_, ?_⟩
  · rw [hformula, all_over_map]
    apply List.all_eq_true.mpr
    intro aq _
    rfl
  · refine ⟨?_, ?_, ?_⟩
    · unfold replenishQuota
      rw [hev]
    · unfold replenishQuota
      rw [hev]
    · unfold replenishQuota
      rw [hev]
      rfl
  · intro registryGet2 hnone lo
    unfold replenishQuota
    rw [hnone]
  · intro aq hnil
    rw [hnil]
    show (! (evaluator.matchingResources (RL.keys [])).isEmpty) = false
    show (! (evaluator.matchingResources []).isEmpty) = false
    rw [hmr]
    rfl

/-! ## Discovery: `GetQuotableResources` (controller.go:561-582),
the `Sync` loop (controller.go:462-516) and `Run` (controller.go:306-330) -/

/-- `schema.GroupVersionResource`. -/
structure GroupVersionResource where
  group : String
  version : String
  resource : String
deriving DecidableEq

def podsGVR : GroupVersionResource :=
  ⟨"", "v1", "pods"⟩

/-- `GetQuotableResources` as the source ships it: the dynamic
discovery-and-filter body is commented out and the function returns the
constant one-element set containing core/v1 pods with a nil error. -/
def GetQuotableResources : List GroupVersionResource × Option String :=
  ([podsGVR], none)

/-- A served resource together with the verbs it supports, the input of
the discovery filter the claim (and the commented-out code) describes. -/
structure APIResourceEntry where
  gvr : GroupVersionResource
  verbs : List String

/-- Modelled from the spec: the set `GetQuotableResources` is claimed to
return — the currently served group/version/resource triples supporting
the verbs create, list, watch and delete (the commented-out
`discovery.FilteredBy(discovery.SupportsAllVerbs...)` body). -/
def quotableOf (served : List APIResourceEntry) :
    List GroupVersionResource :=
  (served.filter (fun r =>
    ["create", "list", "watch", "delete"].all
      (fun v => r.verbs.contains v))).map (fun r => r.gvr)

/-- `reflect.DeepEqual` on `map[GroupVersionResource]struct\x7b\x7d`
values: equality of key sets. -/
def gvrSetEq (a b : List GroupVersionResource) : Bool :=
  a.all (fun g => b.contains g) && b.all (fun g => a.contains g)

/-- C8 counterexample: `GetQuotableResources` does not return the
quotable subset of the currently served resources — with nothing served
the quotable set is empty, yet the function still returns pods. -/
theorem getQuotableResources_ignores_discovery :
    ¬ (gvrSetEq GetQuotableResources.1 (quotableOf []) = true
        ∧ GetQuotableResources.2 = none) := by
  decide

/-- C8 (amended): `GetQuotableResources` ignores discovery entirely and
returns exactly the constant set containing core/v1 pods, with a nil
error (so the partial-discovery error path never occurs). -/
theorem getQuotableResources_constant_pods :
    GetQuotableResources = ([podsGVR], none) := rfl

/-- The teardown actions `Run` defers, in registration order
(controller.go:307-308): `utilruntime.HandleCrash()` and
`rq.queue.ShutDown()`. -/
inductive TeardownAction
  | handleCrash
  | shutDownQueue (q : QueueId)
deriving DecidableEq

/-- What `Run` registers with `defer`; these are exactly the actions
executed when the stop channel closes and `Run` returns. -/
def runDeferredActions : List TeardownAction :=
  [.handleCrash, .shutDownQueue QueueId.primary]

/-- C9 (code-bug evidence): on shutdown `Run` shuts down the primary
queue but registers no shutdown for the priority (missing-usage) queue,
so only one of the two queues is shut down before `Run` returns. -/
theorem run_shuts_down_only_primary_queue :
    (TeardownAction.shutDownQueue QueueId.primary ∈ runDeferredActions)
    ∧ (TeardownAction.shutDownQueue QueueId.missingUsage
        ∉ runDeferredActions) := by
  decide

/-- The kind of error the discovery probe reports on a Sync tick. -/
inductive DiscoveryErr
  | ok
  | partialGroup
  | other
deriving DecidableEq

/-- The Go loop `for k, v := range oldResources \x7b newResources[k] = v \x7d`:
as a key set, the union of the two sets. -/
def gvrUnion (base extra : List GroupVersionResource) :
    List GroupVersionResource :=
  base ++ extra.filter (fun g => ! base.contains g)

/-- Outcome of one tick of the `Sync` loop body: an early return that
leaves the remembered set and the monitors untouched (`skipped`), the
no-update return after the `reflect.DeepEqual` check (`noChange`), or
the resync path, carrying the set handed to `resyncMonitors` and
committed as `oldResources` when monitor resync and cache warm-up
succeed (`resync`). -/
inductive TickOutcome
  | skipped
  | noChange
  | resync (committed : List GroupVersionResource)
deriving DecidableEq

/-- One tick of the `Sync` loop body (controller.go:465-515). -/
def syncTick (oldResources newResources : List GroupVersionResource)
    (errKind : DiscoveryErr) : TickOutcome :=
  match errKind with
  | .ok =>
    if gvrSetEq oldResources newResources then .noChange
    else .resync newResources
  | .partialGroup =>
    if newResources.isEmpty then .skipped
    else
      let merged := gvrUnion newResources oldResources
      if gvrSetEq oldResources merged then .noChange
      else .resync merged
  | .other => .skipped

theorem contains_iff_mem {α : Type} [BEq α] [LawfulBEq α]
    (l : List α) (a : α) : l.contains a = true ↔ a ∈ l := by
  induction l with
  | nil => simp
  | cons x l ih => simp [List.contains_cons]

/-- C6: on a Sync tick, a partial discovery failure with a non-empty
result unions the remembered set into the new one, so any set reaching
the resync path contains both the old and the new sets (the monitored
set never shrinks below the remembered one); a total failure (an error
of another kind, or any error with zero resources) skips the tick,
leaving the remembered set and the monitors unchanged; and a resulting
set equal to the remembered one makes the tick a no-op. -/
theorem syncTick_discovery_handling
    (oldResources newResources : List GroupVersionResource) :
    (syncTick oldResources newResources .other = .skipped)
    ∧ (newResources.isEmpty = true →
        ∀ ek : DiscoveryErr, ek ≠ DiscoveryErr.ok →
          syncTick oldResources newResources ek = .skipped)
    ∧ (∀ committed : List GroupVersionResource,
        syncTick oldResources newResources .partialGroup
            = .resync committed →
          (∀ g ∈ oldResources, g ∈ committed)
          ∧ (∀ g ∈ newResources, g ∈ committed))
    ∧ (gvrSetEq oldResources
          (gvrUnion newResources oldResources) = true →
        ¬ newResources.isEmpty = true →
        syncTick oldResources newResources .partialGroup = .noChange)
    ∧ (gvrSetEq oldResources newResources = true →
        syncTick oldResources newResources .ok = .noChange) := by
  refine ⟨rfl, ?_, ?_, ?_, ?_⟩
  · intro hempty ek hek
    cases ek with
    | ok => exact absurd rfl hek
    | partialGroup =>
      unfold syncTick
      rw [if_pos hempty]
    | other => rfl
  · intro committed hres
    unfold syncTick at hres
    by_cases hempty : newResources.isEmpty = true
    · rw [if_pos hempty] at hres
      exact absurd hres (by simp)
    · rw [if_neg hempty] at hres
      by_cases heq : gvrSetEq oldResources
          (gvrUnion newResources oldResources) = true
      · rw [if_pos heq] at hres
        exact absurd hres (by simp)
      · rw [if_neg heq] at hres
        have hcom : committed = gvrUnion newResources oldResources := by
          cases hres
          rfl
        rw [hcom]
        constructor
        · intro g hg
          unfold gvrUnion
          by_cases hgn : g ∈ newResources
          · exact List.mem_append_left _ hgn
          · apply List.mem_append_right
            apply List.mem_filter.mpr
            refine ⟨hg, ?_⟩
            have : newResources.contains g = false := by
              cases hc : newResources.contains g
              · rfl
              · exact absurd ((contains_iff_mem _ _).mp hc) hgn
            rw [this]
            rfl
        · intro g hg
          exact List.mem_append_left _ hg
  · intro heq hempty
    unfold syncTick
    rw [if_neg hempty, if_pos heq]
  · intro heq
    unfold syncTick
    rw [if_pos heq]

/-- A concrete evaluator scoring only `pods`. -/
def sampleEvaluator : Evaluator :=
  ⟨fun l => l.filter (fun s => s == "pods")⟩

/-- A registry with `sampleEvaluator` for every group resource. -/
def sampleRegistryGet : GroupResource → Option Evaluator :=
  fun _ => some sampleEvaluator

/-- A quota whose status has been written: hard and used are present. -/
def sampleQuotaWritten : AccountQuota :=
  ⟨"q1", ⟨"a", ⟨some [("pods", 10)]⟩⟩,
    ⟨⟨some [("pods", 10)], some [("pods", 1)]⟩, []⟩⟩

/-- A quota that declares pods in its spec but whose status was never
written: `status.total.hard` is still the nil map. -/
def sampleQuotaUnwritten : AccountQuota :=
  ⟨"q2", ⟨"a", ⟨some [("pods", 5)]⟩⟩, ⟨⟨none, none⟩, []⟩⟩

theorem replenishQuota_primary_only_status_gated_witness :
    replenishQuota sampleRegistryGet ⟨"", "pods"⟩
        (.ok [sampleQuotaWritten, sampleQuotaUnwritten])
      = [(QueueId.primary, "q1")] := by
  have h := replenishQuota_primary_only_status_gated sampleRegistryGet
      ⟨"", "pods"⟩ sampleEvaluator [sampleQuotaWritten, sampleQuotaUnwritten]
      rfl (by decide)
  rw [h.1]
  decide

/-! ## Idempotence of the reconciler -/

theorem wf_append_singleton (r : ResourceList) (k : String) (v : Int)
    (h : RL.WF r) (hk : RL.get r k = none) : RL.WF (r ++ [(k, v)]) := by
  unfold RL.WF RL.keys
  rw [List.map_append, List.nodup_append]
  refine ⟨h, List.nodup_singleton _, ?_⟩
  intro x hx hx2
  simp at hx2
  rw [hx2] at hx
  have := (RL.mem_iff_keys r k).mpr hx
  rw [RL.mem, hk] at this
  simp at this

theorem map_replace_no_key (k : String) (v : Int) :
    ∀ r : ResourceList, (∀ q ∈ r, (q.1 == k) = false) →
    r.map (fun q => if q.1 == k then (q.1, v) else q) = r := by
  intro r
  induction r with
  | nil => intro _; rfl
  | cons q r ih =>
    intro h
    rw [List.map_cons, h q (List.mem_cons_self q r)]
    simp only [Bool.false_eq_true, if_false]
    rw [ih (fun x hx => h x (List.mem_cons_of_mem _ hx))]

theorem map_replace_eq_self (k : String) (v : Int) :
    ∀ r : ResourceList, RL.WF r → RL.get r k = some v →
    r.map (fun q => if q.1 == k then (q.1, v) else q) = r := by
  intro r
  induction r with
  | nil => intro _ hget; simp [RL.get] at hget
  | cons q r ih =>
    intro hwf hget
    simp only [RL.WF, RL.keys, List.map_cons, List.nodup_cons] at hwf
    by_cases hqk : q.1 = k
    · have hb : (q.1 == k) = true := beq_iff_eq.mpr hqk
      rw [RL.get_cons, if_pos hb] at hget
      have hv : q.2 = v := by
        injection hget
      rw [List.map_cons, hb]
      simp only [if_true]
      rw [map_replace_no_key k v r ?hno, ← hv, Prod.mk.eta]
      case hno =>
        intro x hx
        apply beq_eq_false_iff_ne.mpr
        intro he
        apply hwf.1
        rw [← hqk] at he
        exact he ▸ List.mem_map.mpr ⟨x, hx, rfl⟩
    · have hb : (q.1 == k) = false := beq_eq_false_iff_ne.mpr hqk
      rw [RL.get_cons, hb] at hget
      simp only [Bool.false_eq_true, if_false] at hget
      rw [List.map_cons, hb]
      simp only [Bool.false_eq_true, if_false]
      rw [ih hwf.2 hget]

theorem rlOverlay_split (w : ResourceList) :
    ∀ (c j : ResourceList), RL.WF (w ++ j) → RL.WF c →
    (∀ p ∈ c, RL.get w p.1 = some p.2
      ∨ (RL.get w p.1 = none ∧ p.1 ∉ RL.keys j)) →
    rlOverlay (w ++ j) c
      = w ++ j ++ c.filter (fun p => (RL.get w p.1).isNone) := by
  intro c
  induction c with
  | nil =>
    intro j _ _ _
    simp [rlOverlay]
  | cons p c ih =>
    intro j hwj hc hcond
    have hctail : RL.WF c := by
      simp only [RL.WF, RL.keys, List.map_cons, List.nodup_cons] at hc
      exact hc.2
    show rlOverlay (rlSet (w ++ j) p.1 p.2) c = _
    rcases hcond p (List.mem_cons_self p c) with hsome | ⟨hnone, hnj⟩
    · have hget : RL.get (w ++ j) p.1 = some p.2 := by
        rw [RL.get_append, hsome]
        rfl
      have hset : rlSet (w ++ j) p.1 p.2 = w ++ j := by
        unfold rlSet
        rw [hget]
        simp only [Option.isSome_some, if_true]
        exact map_replace_eq_self p.1 p.2 (w ++ j) hwj hget
      rw [hset,
        ih j hwj hctail (fun q hq => hcond q (List.mem_cons_of_mem _ hq))]
      have hfil : ((RL.get w p.1).isNone) = false := by
        rw [hsome]
        rfl
      rw [List.filter_cons, hfil]
      simp only [Bool.false_eq_true, if_false]
    · have hgetj : RL.get j p.1 = none :=
        RL.get_eq_none_of_not_mem j p.1 hnj
      have hget : RL.get (w ++ j) p.1 = none := by
        rw [RL.get_append, hnone, hgetj]
        rfl
      have hset : rlSet (w ++ j) p.1 p.2 = w ++ (j ++ [(p.1, p.2)]) := by
        unfold rlSet
        rw [hget]
        simp only [Option.isSome_none, Bool.false_eq_true, if_false]
        rw [List.append_assoc]
      have hwj2 : RL.WF (w ++ (j ++ [(p.1, p.2)])) := by
        rw [← List.append_assoc]
        exact wf_append_singleton (w ++ j) p.1 p.2 hwj hget
      have hcond2 : ∀ q ∈ c, RL.get w q.1 = some q.2
          ∨ (RL.get w q.1 = none ∧ q.1 ∉ RL.keys (j ++ [(p.1, p.2)])) := by
        intro q hq
        rcases hcond q (List.mem_cons_of_mem _ hq) with h1 | ⟨h1, h2⟩
        · exact Or.inl h1
        · refine Or.inr ⟨h1, ?_⟩
          unfold RL.keys
          rw [List.map_append]
          intro hmem
          rcases List.mem_append.mp hmem with hm | hm
          · exact h2 hm
          · simp at hm
            simp only [RL.WF, RL.keys, List.map_cons,
              List.nodup_cons] at hc
            exact hc.1 (hm ▸ List.mem_map.mpr ⟨q, hq, rfl⟩)
      rw [hset, ih (j ++ [(p.1, p.2)]) hwj2 hctail hcond2]
      have hfil : ((RL.get w p.1).isNone) = true := by
        rw [hnone]
        rfl
      rw [List.filter_cons, hfil]
      simp only [if_true]
      simp [List.append_assoc, List.singleton_append]

/-- Masked-overlay stability: re-seeding from an already reconciled
per-namespace used map and overlaying the same fresh usage again
reproduces the same map. -/
theorem sync_used_stable (s c : ResourceList) (names : List String)
    (hs : RL.WF s) (hc : RL.WF c) :
    rlMask (rlOverlay (rlMask (rlOverlay s c) names) c) names
      = rlMask (rlOverlay s c) names := by
  set w := rlMask (rlOverlay s c) names with hw
  have hwwf : RL.WF w := wf_rlMask _ _ (wf_rlOverlay s c hs)
  have hgetw : ∀ p ∈ c, RL.get w p.1
      = if names.contains p.1 then some p.2 else none := by
    intro p hp
    rw [hw, get_rlMask]
    by_cases hcn : names.contains p.1 = true
    · rw [if_pos hcn, if_pos hcn, get_rlOverlay, revGet_eq_get c hc,
        RL.get_of_mem_wf c hc p hp]
      rfl
    · rw [if_neg hcn, if_neg hcn]
  have hcond : ∀ p ∈ c, RL.get w p.1 = some p.2
      ∨ (RL.get w p.1 = none ∧ p.1 ∉ RL.keys ([] : ResourceList)) := by
    intro p hp
    rw [hgetw p hp]
    by_cases hcn : names.contains p.1 = true
    · rw [if_pos hcn]
      exact Or.inl rfl
    · rw [if_neg hcn]
      exact Or.inr ⟨rfl, by simp [RL.keys]⟩
  have hsplit := rlOverlay_split w c [] (by rwa [List.append_nil]) hc hcond
  rw [List.append_nil] at hsplit
  rw [hsplit]
  have hjunk : (c.filter (fun p => (RL.get w p.1).isNone)).filter
      (fun p => names.contains p.1) = [] := by
    apply List.filter_eq_nil_iff.mpr
    intro p hp hcn
    have hpc : p ∈ c := (List.mem_filter.mp hp).1
    have hpn : ((RL.get w p.1).isNone) = true := (List.mem_filter.mp hp).2
    rw [hgetw p hpc, if_pos hcn] at hpn
    simp at hpn
  have hwself : w.filter (fun p => names.contains p.1) = w := by
    apply List.filter_eq_self.mpr
    intro p hp
    rw [hw] at hp
    exact (List.mem_filter.mp hp).2
  show (w ++ c.filter (fun p => (RL.get w p.1).isNone)).filter
      (fun p => names.contains p.1) = w
  rw [List.filter_append, hjunk, hwself, List.append_nil]

theorem seed_foldl_no_match (n : String) :
    ∀ (entries : List AccountQuotaStatusByNamespace) (acc : ResourceList),
    (∀ e ∈ entries, (e.ns == n) = false) →
    entries.foldl (fun usedList nsStatus =>
      if nsStatus.ns == n && nsStatus.status.used.isSome then
        rlAdd [] (nsStatus.status.used.getD [])
      else usedList) acc = acc := by
  intro entries
  induction entries with
  | nil => intro acc _; rfl
  | cons e entries ih =>
    intro acc h
    rw [List.foldl_cons]
    show entries.foldl _
        (if e.ns == n && e.status.used.isSome then
          rlAdd [] (e.status.used.getD []) else acc) = acc
    rw [h e (List.mem_cons_self e entries)]
    simp only [Bool.false_and, Bool.false_eq_true, if_false]
    exact ih acc (fun x hx => h x (List.mem_cons_of_mem _ hx))

theorem seed_foldl_entries (u : String → ResourceList) (n : String) :
    ∀ (nss : List String) (acc : ResourceList), nss.Nodup → n ∈ nss →
    (nss.map (fun m =>
        (⟨m, ⟨none, some (u m)⟩⟩ : AccountQuotaStatusByNamespace))).foldl
      (fun usedList nsStatus =>
        if nsStatus.ns == n && nsStatus.status.used.isSome then
          rlAdd [] (nsStatus.status.used.getD [])
        else usedList) acc = rlAdd [] (u n) := by
  intro nss
  induction nss with
  | nil => intro acc _ h; simp at h
  | cons m nss ih =>
    intro acc hnodup hmem
    have hnd := List.nodup_cons.mp hnodup
    rw [List.map_cons, List.foldl_cons]
    show (nss.map _).foldl _
        (if m == n && (Option.some (u m)).isSome then
          rlAdd [] ((Option.some (u m)).getD []) else acc) = rlAdd [] (u n)
    by_cases hm : m = n
    · have hb : (m == n) = true := beq_iff_eq.mpr hm
      rw [hb]
      simp only [Option.isSome_some, Bool.true_and, if_true,
        Option.getD_some]
      rw [hm]
      apply seed_foldl_no_match
      intro e he
      rcases List.mem_map.mp he with ⟨m2, hm2, he2⟩
      rw [← he2]
      show (m2 == n) = false
      apply beq_eq_false_iff_ne.mpr
      intro he3
      rw [he3] at hm2
      rw [hm] at hnd
      exact hnd.1 hm2
    · have hb : (m == n) = false := beq_eq_false_iff_ne.mpr hm
      rw [hb]
      simp only [Bool.false_and, Bool.false_eq_true, if_false]
      have hmem2 : n ∈ nss := by
        rcases List.mem_cons.mp hmem with h1 | h1
        · exact absurd h1.symm hm
        · exact h1
      exact ih acc hnd.2 hmem2

theorem seedUsed_of_entries (u : String → ResourceList) (n : String)
    (nss : List String) (hnodup : nss.Nodup) (hmem : n ∈ nss) :
    seedUsed (nss.map (fun m =>
      (⟨m, ⟨none, some (u m)⟩⟩ : AccountQuotaStatusByNamespace))) n
      = rlAdd [] (u n) :=
  seed_foldl_entries u n nss [] hnodup hmem

theorem wf_seed_foldl (n : String) :
    ∀ (prev : List AccountQuotaStatusByNamespace) (acc : ResourceList),
    RL.WF acc →
    (∀ e ∈ prev, RL.WF (e.status.used.getD [])) →
    RL.WF (prev.foldl (fun usedList nsStatus =>
      if nsStatus.ns == n && nsStatus.status.used.isSome then
        rlAdd [] (nsStatus.status.used.getD [])
      else usedList) acc) := by
  intro prev
  induction prev with
  | nil => intro acc hacc _; exact hacc
  | cons e prev ih =>
    intro acc hacc hall
    rw [List.foldl_cons]
    apply ih
    · show RL.WF (if e.ns == n && e.status.used.isSome then
        rlAdd [] (e.status.used.getD []) else acc)
      by_cases hcond : (e.ns == n && e.status.used.isSome) = true
      · rw [if_pos hcond, rlAdd_nil_left]
        exact hall e (List.mem_cons_self e prev)
      · rw [if_neg hcond]
        exact hacc
    · intro x hx
      exact hall x (List.mem_cons_of_mem _ hx)

theorem wf_seedUsed (prev : List AccountQuotaStatusByNamespace)
    (hall : ∀ e ∈ prev, RL.WF (e.status.used.getD [])) (n : String) :
    RL.WF (seedUsed prev n) :=
  wf_seed_foldl n prev [] List.nodup_nil hall

theorem wf_syncNamespaceUsed (prev : List AccountQuotaStatusByNamespace)
    (hardResources : List String) (newUsage : ResourceList) (n : String)
    (hall : ∀ e ∈ prev, RL.WF (e.status.used.getD [])) :
    RL.WF (syncNamespaceUsed prev hardResources newUsage n) :=
  wf_rlMask _ _ (wf_rlOverlay _ _ (wf_seedUsed prev hall n))

theorem wf_foldl_rlAdd {α : Type} (f : α → ResourceList) :
    ∀ (l : List α) (init : ResourceList), RL.WF init →
    (∀ x ∈ l, RL.WF (f x)) →
    RL.WF (l.foldl (fun t n => rlAdd t (f n)) init) := by
  intro l
  induction l with
  | nil => intro init hinit _; exact hinit
  | cons x l ih =>
    intro init hinit hall
    rw [List.foldl_cons]
    exact ih (rlAdd init (f x))
      (wf_rlAdd _ _ hinit (hall x (List.mem_cons_self x l)))
      (fun y hy => hall y (List.mem_cons_of_mem _ hy))

theorem map_congr_mem {α β : Type} (l : List α) (f g : α → β)
    (h : ∀ x ∈ l, f x = g x) : l.map f = l.map g := by
  induction l with
  | nil => rfl
  | cons x l ih =>
    rw [List.map_cons, List.map_cons, h x (List.mem_cons_self x l),
      ih (fun y hy => h y (List.mem_cons_of_mem _ hy))]

theorem foldl_congr_mem {α β : Type} (l : List α) (f g : β → α → β) :
    ∀ init : β, (∀ acc x, x ∈ l → f acc x = g acc x) →
    l.foldl f init = l.foldl g init := by
  induction l with
  | nil => intro init _; rfl
  | cons x l ih =>
    intro init h
    rw [List.foldl_cons, List.foldl_cons,
      h init x (List.mem_cons_self x l)]
    exact ih _ (fun acc y hy => h acc y (List.mem_cons_of_mem _ hy))

/-- The computed status of `syncResourceQuota`, component by component. -/
theorem syncResourceQuota_status_eq (accountQuota : AccountQuota)
    (namespaceList : List String)
    (calcUsage : String → ResourceList × Option String)
    (updateErr : Option String) :
    (syncResourceQuota accountQuota namespaceList calcUsage
        updateErr).status
      = AccountQuotaStatus.mk
          (ResourceQuotaStatus.mk
            (some (rlAdd [] (accountQuota.spec.quota.hard.getD [])))
            (some (namespaceList.foldl (fun t n => rlAdd t
              (syncNamespaceUsed accountQuota.status.namespaces
                (RL.keys (rlAdd [] (accountQuota.spec.quota.hard.getD [])))
                (calcUsage n).1 n)) [])))
          (namespaceList.map (fun n =>
            AccountQuotaStatusByNamespace.mk n
              (ResourceQuotaStatus.mk none (some (syncNamespaceUsed
                accountQuota.status.namespaces
                (RL.keys (rlAdd [] (accountQuota.spec.quota.hard.getD [])))
                (calcUsage n).1 n))))) := by
  simp only [syncResourceQuota, syncLoop_eq, List.nil_append]

/-- The write flag of `syncResourceQuota`, fully unfolded. -/
theorem syncResourceQuota_dirty_eq (accountQuota : AccountQuota)
    (namespaceList : List String)
    (calcUsage : String → ResourceList × Option String)
    (updateErr : Option String) :
    (syncResourceQuota accountQuota namespaceList calcUsage
        updateErr).dirty
      = ((! semDeepEqual accountQuota.spec.quota.hard
            accountQuota.status.total.hard
          || accountQuota.status.total.hard.isNone
          || accountQuota.status.total.used.isNone)
        || ! rlEquals (namespaceList.foldl (fun t n => rlAdd t
              (syncNamespaceUsed accountQuota.status.namespaces
                (RL.keys (rlAdd [] (accountQuota.spec.quota.hard.getD [])))
                (calcUsage n).1 n)) [])
            (accountQuota.status.total.used.getD [])) := by
  simp only [syncResourceQuota, syncLoop_eq]

/-- Recomputing a namespace's used map from the entries the previous
reconcile produced yields the same map again. -/
theorem syncNamespaceUsed_idem
    (prev : List AccountQuotaStatusByNamespace)
    (hardResources : List String)
    (calcUsage : String → ResourceList × Option String)
    (namespaceList : List String) (n : String)
    (hnodup : namespaceList.Nodup) (hn : n ∈ namespaceList)
    (hprev : ∀ e ∈ prev, RL.WF (e.status.used.getD []))
    (hcalc : ∀ m, RL.WF (calcUsage m).1) :
    syncNamespaceUsed
      (namespaceList.map (fun m => ⟨m, ⟨none,
        some (syncNamespaceUsed prev hardResources (calcUsage m).1 m)⟩⟩))
      hardResources (calcUsage n).1 n
    = syncNamespaceUsed prev hardResources (calcUsage n).1 n := by
  unfold syncNamespaceUsed
  rw [seedUsed_of_entries
    (fun m => rlMask (rlOverlay (seedUsed prev m) (calcUsage m).1)
      hardResources) n namespaceList hnodup hn]
  rw [rlAdd_nil_left]
  exact sync_used_stable (seedUsed prev n) (calcUsage n).1 hardResources
    (wf_seedUsed prev hprev n) (hcalc n)

/-- C5 (amended): when `spec.quota.hard` is a non-nil well-formed map,
the namespace names are distinct, and the previous status and evaluator
results are well-formed Go maps, re-running `syncResourceQuota` on the
status it has just written — with the namespace list and evaluator
results unchanged — recomputes an identical status, finds `dirty` false
and issues no second write. (With a nil `spec.quota.hard` the recomputed
status is still identical but `dirty` stays true: see the
counterexample.) -/
theorem sync_second_run_clean
    (accountQuota : AccountQuota) (namespaceList : List String)
    (calcUsage : String → ResourceList × Option String)
    (updateErr updateErr2 : Option String)
    (hspec : accountQuota.spec.quota.hard ≠ none)
    (hspecwf : RL.WF (accountQuota.spec.quota.hard.getD []))
    (hnss : namespaceList.Nodup)
    (hcalc : ∀ n, RL.WF (calcUsage n).1)
    (hprev : ∀ e ∈ accountQuota.status.namespaces,
      RL.WF (e.status.used.getD [])) :
    (syncResourceQuota
        { accountQuota with status :=
            (syncResourceQuota accountQuota namespaceList calcUsage
              updateErr).status }
        namespaceList calcUsage updateErr2).status
      = (syncResourceQuota accountQuota namespaceList calcUsage
          updateErr).status
    ∧ (syncResourceQuota
        { accountQuota with status :=
            (syncResourceQuota accountQuota namespaceList calcUsage
              updateErr).status }
        namespaceList calcUsage updateErr2).dirty = false := by
  constructor
  · rw [syncResourceQuota_status_eq, syncResourceQuota_status_eq]
    dsimp only
    congr 1
    · congr 1
      apply congrArg
      apply foldl_congr_mem
      intro acc n hn
      rw [syncNamespaceUsed_idem accountQuota.status.namespaces _
        calcUsage namespaceList n hnss hn hprev hcalc]
    · apply map_congr_mem
      intro n hn
      rw [syncNamespaceUsed_idem accountQuota.status.namespaces _
        calcUsage namespaceList n hnss hn hprev hcalc]
  · rw [syncResourceQuota_status_eq, syncResourceQuota_dirty_eq]
    dsimp only
    have hT : namespaceList.foldl (fun t n => rlAdd t
        (syncNamespaceUsed (namespaceList.map (fun m =>
          AccountQuotaStatusByNamespace.mk m
            (ResourceQuotaStatus.mk none (some (syncNamespaceUsed
              accountQuota.status.namespaces
              (RL.keys (rlAdd [] (accountQuota.spec.quota.hard.getD [])))
              (calcUsage m).1 m)))))
          (RL.keys (rlAdd [] (accountQuota.spec.quota.hard.getD [])))
          (calcUsage n).1 n)) []
        = namespaceList.foldl (fun t n => rlAdd t
            (syncNamespaceUsed accountQuota.status.namespaces
              (RL.keys (rlAdd [] (accountQuota.spec.quota.hard.getD [])))
              (calcUsage n).1 n)) [] := by
      apply foldl_congr_mem
      intro acc n hn
      rw [syncNamespaceUsed_idem accountQuota.status.namespaces _
        calcUsage namespaceList n hnss hn hprev hcalc]
    rw [hT]
    have hTwf : RL.WF (namespaceList.foldl (fun t n => rlAdd t
        (syncNamespaceUsed accountQuota.status.namespaces
          (RL.keys (rlAdd [] (accountQuota.spec.quota.hard.getD [])))
          (calcUsage n).1 n)) []) := by
      apply wf_foldl_rlAdd
      · exact List.nodup_nil
      · intro n _
        exact wf_syncNamespaceUsed _ _ _ _ hprev
    obtain ⟨hardL, hl⟩ : ∃ l, accountQuota.spec.quota.hard = some l := by
      cases hq : accountQuota.spec.quota.hard with
      | none => exact absurd hq hspec
      | some l => exact ⟨l, rfl⟩
    rw [hl]
    simp only [Option.getD_some, Option.isNone_some, Bool.or_false]
    rw [rlAdd_nil_left]
    have h1 : semDeepEqual (some hardL) (some hardL) = true := by
      show rlEquals hardL hardL = true
      apply rlEquals_refl
      rw [hl, Option.getD_some] at hspecwf
      exact hspecwf
    rw [h1]
    rw [rlEquals_refl _ ?wf2]
    · rfl
    case wf2 =>
      rw [hl, Option.getD_some, rlAdd_nil_left] at hTwf
      exact hTwf

/-- A quota whose spec declares no hard limits at all (nil map). -/
def nilHardQuota : AccountQuota :=
  ⟨"q", ⟨"a", ⟨none⟩⟩, ⟨⟨none, none⟩, []⟩⟩

/-- Evaluator results: no usage, no errors. -/
def trivialCalcUsage : String → ResourceList × Option String :=
  fun _ => ([], none)

/-- C5 counterexample: for an `AccountQuota` whose `spec.quota.hard` is
the nil map, re-running `syncResourceQuota` on the status it has just
written (same namespace list, same evaluator results) recomputes an
identical status yet still finds `dirty` true — the written
`status.total.hard` is the empty non-nil map, which
`Semantic.DeepEqual` distinguishes from the nil spec map — so a second
status write is issued, contradicting the claim. -/
theorem sync_second_run_dirty_on_nil_hard :
    (syncResourceQuota
        { nilHardQuota with status := (syncResourceQuota nilHardQuota []
            trivialCalcUsage none).status }
        [] trivialCalcUsage none).dirty = true
    ∧ (syncResourceQuota
        { nilHardQuota with status := (syncResourceQuota nilHardQuota []
            trivialCalcUsage none).status }
        [] trivialCalcUsage none).status
      = (syncResourceQuota nilHardQuota [] trivialCalcUsage none).status := by
  decide

/-- A quota declaring pods, status not yet written. -/
def podQuota : AccountQuota :=
  ⟨"q", ⟨"a", ⟨some [("pods", 10)]⟩⟩, ⟨⟨none, none⟩, []⟩⟩

theorem sync_second_run_clean_witness :
    (syncResourceQuota
        { podQuota with status := (syncResourceQuota podQuota ["n1"]
            (fun _ => ([("pods", 1)], none)) none).status }
        ["n1"] (fun _ => ([("pods", 1)], none)) none).dirty = false :=
  (sync_second_run_clean podQuota ["n1"]
      (fun _ => ([("pods", 1)], none)) none none
      (by decide) (by decide) (by decide)
      (fun n => show RL.WF [("pods", 1)] from by decide)
      (fun e he => (List.not_mem_nil e he).elim)).2
